import Mathlib

/-!
Verification of the merge / patch / orchestration logic of the
`sphinx_openapi` Sphinx extension (`sphinx_openapi/sphinx_openapi.py`,
`models/schema_info.py`, `sphinx_openapi/cli.py`).

The embedding models YAML documents (`yaml.safe_load` output) as a tree of
scalars, sequences and mappings; Python `dict`s are modelled as association
lists in insertion order, since `dict` iteration order is insertion order and
the merge algorithm relies on it.  Python dict assignment `d[k] = v` replaces
the value in place when the key is present (keeping its position) and appends
otherwise; this behaviour is `setKey` below.  Dicts are modelled by value:
object aliasing between distinct elements of the input list (impossible in
the program, where every spec comes from a fresh `yaml.safe_load`) is outside
the model.
-/

set_option maxHeartbeats 1000000

/-- A YAML document node as produced by `yaml.safe_load`: `null`, a scalar
(strings, numbers and booleans are collapsed into one scalar constructor,
since the merge logic never inspects scalar contents), a sequence, or a
mapping in insertion order. -/
inductive Node where
  | null : Node
  | scalar : String → Node
  | seq : List Node → Node
  | map : List (String × Node) → Node

/-- Whether a node is a mapping (a Python `dict`). -/
def Node.isMap : Node → Bool
  | .map _ => true
  | _ => false

/-- A parsed OpenAPI specification document: the top-level mapping, as in the
Python type hint `specs : list[dict]` of `merge_openapi_specs`. -/
abbrev Spec := List (String × Node)

/-- Python `d[k]` / `k in d` lookup on an insertion-ordered dict: the value at
the first entry whose key equals `k`. -/
def getVal : List (String × Node) → String → Option Node
  | [], _ => none
  | (k', v) :: rest, k => if k' = k then some v else getVal rest k

/-- The keys of a dict, in insertion order. -/
def keys (l : List (String × Node)) : List String :=
  l.map Prod.fst

/-- Python `k in d`: membership of a key. -/
def containsKey (l : List (String × Node)) (k : String) : Bool :=
  match l with
  | [] => false
  | (k', _) :: rest => if k' = k then true else containsKey rest k

/-- Python `d[k] = v` on an insertion-ordered dict: replace the value of the
first entry with key `k`, keeping its position, or append a new entry when the
key is absent. -/
def setKey : List (String × Node) → String → Node → List (String × Node)
  | [], k, v => [(k, v)]
  | (k', v') :: rest, k, v =>
    if k' = k then (k, v) :: rest else (k', v') :: setKey rest k v

theorem containsKey_eq_true_iff (l : List (String × Node)) (k : String) :
    containsKey l k = true ↔ k ∈ keys l := by
  induction l with
  | nil => simp [containsKey, keys]
  | cons hd tl ih =>
    obtain ⟨k', v⟩ := hd
    by_cases h : k' = k
    · subst h
      simp [containsKey, keys]
    · simp [containsKey, keys, h, Ne.symm h, ih]

theorem getVal_eq_none_iff (l : List (String × Node)) (k : String) :
    getVal l k = none ↔ k ∉ keys l := by
  induction l with
  | nil => simp [getVal, keys]
  | cons hd tl ih =>
    obtain ⟨k', v⟩ := hd
    by_cases h : k' = k
    · subst h
      simp [getVal, keys]
    · simp [getVal, keys, h, Ne.symm h, ih]

theorem getVal_isSome_of_mem (l : List (String × Node)) (k : String)
    (h : k ∈ keys l) : ∃ v, getVal l k = some v := by
  cases hg : getVal l k with
  | none => exact absurd ((getVal_eq_none_iff l k).mp hg) (by simpa using h)
  | some v => exact ⟨v, rfl⟩

theorem setKey_of_not_mem (l : List (String × Node)) (k : String) (v : Node)
    (h : k ∉ keys l) : setKey l k v = l ++ [(k, v)] := by
  induction l with
  | nil => simp [setKey]
  | cons hd tl ih =>
    obtain ⟨k', v'⟩ := hd
    simp only [keys, List.map_cons, List.mem_cons] at h
    push_neg at h
    simp [setKey, Ne.symm h.1, ih (by simpa [keys] using h.2)]

theorem getVal_setKey_self (l : List (String × Node)) (k : String) (v : Node) :
    getVal (setKey l k v) k = some v := by
  induction l with
  | nil => simp [setKey, getVal]
  | cons hd tl ih =>
    obtain ⟨k', v'⟩ := hd
    by_cases h : k' = k <;> simp [setKey, getVal, h, ih]

theorem getVal_setKey_ne (l : List (String × Node)) (k c : String) (v : Node)
    (h : c ≠ k) : getVal (setKey l k v) c = getVal l c := by
  induction l with
  | nil => simp [setKey, getVal, Ne.symm h]
  | cons hd tl ih =>
    obtain ⟨k', v'⟩ := hd
    by_cases hk : k' = k
    · subst hk
      simp [setKey, getVal, Ne.symm h]
    · by_cases hc : k' = c <;> simp [setKey, getVal, hk, hc, h, ih]

theorem setKey_setKey (l : List (String × Node)) (k : String) (v w : Node) :
    setKey (setKey l k v) k w = setKey l k w := by
  induction l with
  | nil => simp [setKey]
  | cons hd tl ih =>
    obtain ⟨k', v'⟩ := hd
    by_cases h : k' = k <;> simp [setKey, h, ih]

theorem length_setKey_of_mem (l : List (String × Node)) (k : String) (v : Node)
    (h : k ∈ keys l) : (setKey l k v).length = l.length := by
  induction l with
  | nil => simp [keys] at h
  | cons hd tl ih =>
    obtain ⟨k', v'⟩ := hd
    by_cases hk : k' = k
    · simp [setKey, hk]
    · have hmem : k ∈ keys tl := by
        simp only [keys, List.map_cons, List.mem_cons] at h
        rcases h with h' | h'
        · exact absurd h'.symm hk
        · exact h'
      simp [setKey, hk, ih hmem]

theorem mem_setKey (l : List (String × Node)) (k : String) (v : Node)
    (p : String × Node) (h : p ∈ setKey l k v) : p = (k, v) ∨ p ∈ l := by
  induction l with
  | nil => simp [setKey] at h; tauto
  | cons hd tl ih =>
    obtain ⟨k', v'⟩ := hd
    by_cases hk : k' = k
    · simp [setKey, hk] at h
      rcases h with h | h
      · exact Or.inl h
      · exact Or.inr (List.mem_cons_of_mem _ h)
    · simp [setKey, hk] at h
      rcases h with h | h
      · exact Or.inr (by simp [h])
      · rcases ih h with h' | h'
        · exact Or.inl h'
        · exact Or.inr (List.mem_cons_of_mem _ h')

/-! ### Decimal rendering of the collision counter

The merge algorithm builds renamed keys with Python f-strings
`f"{path}-{counter}"`; `natToDec` is the decimal rendering of the counter.
It is structurally recursive on an adequate fuel so that concrete merges
evaluate by `rfl`, and it is proved injective, which is what the
fresh-key pigeonhole argument needs. -/

/-- Digits of `n` in decimal, most significant first, prepended to `acc`;
`fuel` bounds the recursion depth and is adequate whenever `n < fuel`. -/
def natToDecAux : Nat → Nat → List Char → List Char
  | 0, _, acc => acc
  | fuel + 1, n, acc =>
    let d := Nat.digitChar (n % 10)
    if n / 10 = 0 then d :: acc else natToDecAux fuel (n / 10) (d :: acc)

/-- Decimal rendering of a natural number, as Python's `str`/f-string does. -/
def natToDec (n : Nat) : String :=
  String.mk (natToDecAux (n + 1) n [])

theorem natToDecAux_append (fuel n : Nat) (acc : List Char) :
    natToDecAux fuel n acc = natToDecAux fuel n [] ++ acc := by
  induction fuel generalizing n acc with
  | zero => simp [natToDecAux]
  | succ fuel ih =>
    by_cases h : n / 10 = 0
    · simp [natToDecAux, h]
    · simp only [natToDecAux, h, if_false]
      rw [ih (n / 10) (Nat.digitChar (n % 10) :: acc),
        ih (n / 10) [Nat.digitChar (n % 10)], List.append_assoc]
      rfl

theorem natToDecAux_fuel : ∀ n fuelA fuelB : Nat, ∀ acc : List Char,
    n < fuelA → n < fuelB → natToDecAux fuelA n acc = natToDecAux fuelB n acc := by
  intro n
  induction n using Nat.strong_induction_on with
  | _ n ih =>
    intro fuelA fuelB acc hA hB
    obtain ⟨fa, rfl⟩ : ∃ f, fuelA = f + 1 := ⟨fuelA - 1, by omega⟩
    obtain ⟨fb, rfl⟩ : ∃ f, fuelB = f + 1 := ⟨fuelB - 1, by omega⟩
    by_cases h0 : n / 10 = 0
    · simp [natToDecAux, h0]
    · have hn : 0 < n := by
        rcases Nat.eq_zero_or_pos n with h' | h'
        · subst h'; simp at h0
        · exact h'
      have hlt : n / 10 < n := Nat.div_lt_self hn (by norm_num)
      simp only [natToDecAux, h0, if_false]
      exact ih (n / 10) hlt fa fb _ (by omega) (by omega)

/-- The digit list of `n` (most significant first). -/
def natDigits (n : Nat) : List Char :=
  natToDecAux (n + 1) n []

theorem natDigits_unfold (n : Nat) :
    natDigits n =
      (if n < 10 then [] else natDigits (n / 10)) ++ [Nat.digitChar (n % 10)] := by
  by_cases h : n < 10
  · have h0 : n / 10 = 0 := Nat.div_eq_of_lt h
    simp [natDigits, natToDecAux, h0, h]
  · have h0 : n / 10 ≠ 0 := by omega
    have hn : 0 < n := by omega
    have hlt : n / 10 < n := Nat.div_lt_self hn (by norm_num)
    simp only [natDigits, natToDecAux, h0, if_false, h]
    rw [natToDecAux_append,
      natToDecAux_fuel (n / 10) n (n / 10 + 1) [] (by omega) (by omega)]
    simp [natToDecAux]

theorem natDigits_ne_nil (n : Nat) : natDigits n ≠ [] := by
  rw [natDigits_unfold]
  simp

theorem digitChar_inj_lt (a b : Nat) (ha : a < 10) (hb : b < 10)
    (h : Nat.digitChar a = Nat.digitChar b) : a = b := by
  have : ∀ x < 10, ∀ y < 10, Nat.digitChar x = Nat.digitChar y → x = y := by decide
  exact this a ha b hb h

theorem natDigits_inj : ∀ n m : Nat, natDigits n = natDigits m → n = m := by
  intro n
  induction n using Nat.strong_induction_on with
  | _ n ih =>
    intro m h
    rw [natDigits_unfold n, natDigits_unfold m] at h
    have h' := congrArg List.reverse h
    simp only [List.reverse_append, List.reverse_cons, List.reverse_nil,
      List.nil_append, List.singleton_append, List.cons.injEq] at h'
    obtain ⟨hd, ht⟩ := h'
    have hmod : n % 10 = m % 10 :=
      digitChar_inj_lt _ _ (Nat.mod_lt _ (by norm_num)) (Nat.mod_lt _ (by norm_num)) hd
    have htl : (if n < 10 then ([] : List Char) else natDigits (n / 10)) =
        (if m < 10 then ([] : List Char) else natDigits (m / 10)) := by
      have := congrArg List.reverse ht
      simpa using this
    by_cases hn : n < 10 <;> by_cases hm : m < 10
    · omega
    · rw [if_pos hn, if_neg hm] at htl
      exact absurd htl.symm (natDigits_ne_nil _)
    · rw [if_neg hn, if_pos hm] at htl
      exact absurd htl (natDigits_ne_nil _)
    · rw [if_neg hn, if_neg hm] at htl
      have hdiv : n / 10 = m / 10 := by
        have hlt : n / 10 < n := Nat.div_lt_self (by omega) (by norm_num)
        exact ih (n / 10) hlt (m / 10) htl
      omega

theorem natToDec_inj (n m : Nat) (h : natToDec n = natToDec m) : n = m := by
  apply natDigits_inj
  have := congrArg String.data h
  simpa [natToDec, natDigits] using this

/-! ### Fresh key generation (the `while ... in ...` retry loops) -/

/-- The renamed-key candidate built by the Python f-string
`f"{base}-{counter}"`. -/
def cand (base : String) (n : Nat) : String :=
  base ++ "-" ++ natToDec n

theorem cand_inj (base : String) (n m : Nat) (h : cand base n = cand base m) :
    n = m := by
  apply natDigits_inj
  have hd := congrArg String.data h
  simp only [cand, String.data_append] at hd
  have := List.append_cancel_left hd
  simpa [natToDec, natDigits] using this

/-- The retry loop of `merge_openapi_specs`
(`while candidate in used: candidate = f"{base}-{counter}"; counter += 1`),
trying counters `c, c + 1, …` for at most `fuel` attempts.  A fuel of
`used.length + 1` always reaches an unused candidate
(`exists_cand_not_mem`), so the fuel never runs out where the function is
used and the fallback value of the fuel-0 case is never produced. -/
def freshKeyAux (used : List String) (base : String) : Nat → Nat → String
  | 0, c => cand base c
  | fuel + 1, c =>
    if cand base c ∈ used then freshKeyAux used base fuel (c + 1) else cand base c

/-- The unique key chosen for a path `p` of an incoming spec: `p` itself when
not yet in the merged `paths`, else the first unused candidate `p-1`, `p-2`, ….
Mirrors the path loop of `merge_openapi_specs` (`unique_path = path;
counter = 1; while unique_path in merged_spec["paths"]: ...`). -/
def uniquePathKey (used : List String) (p : String) : String :=
  if p ∈ used then freshKeyAux used p (used.length + 1) 1 else p

/-- The renamed key chosen for a colliding component entry name: the first
unused candidate `name-1`, `name-2`, … (the component branch of
`merge_openapi_specs` only calls this when `name` is already used). -/
def uniqueItemKey (used : List String) (name : String) : String :=
  freshKeyAux used name (used.length + 1) 1

theorem exists_cand_not_mem (used : List String) (base : String) (c : Nat) :
    ∃ n, c ≤ n ∧ n < c + (used.length + 1) ∧ cand base n ∉ used := by
  by_contra hcon
  push_neg at hcon
  have hsub : ((List.range' c (used.length + 1)).map (cand base)) ⊆ used := by
    intro x hx
    simp only [List.mem_map] at hx
    obtain ⟨n, hn, rfl⟩ := hx
    rw [List.mem_range'_1] at hn
    exact hcon n hn.1 hn.2
  have hnd : ((List.range' c (used.length + 1)).map (cand base)).Nodup :=
    List.Nodup.map (fun a b hab => cand_inj base a b hab) (List.nodup_range' c _)
  have hle := (List.Nodup.subperm hnd hsub).length_le
  simp only [List.length_map, List.length_range'] at hle
  omega

theorem freshKeyAux_eq_of (used : List String) (base : String) :
    ∀ fuel c n : Nat, c ≤ n → n < c + fuel → cand base n ∉ used →
      (∀ m, c ≤ m → m < n → cand base m ∈ used) →
      freshKeyAux used base fuel c = cand base n := by
  intro fuel
  induction fuel with
  | zero =>
    intro c n h1 h2 _ _
    omega
  | succ fuel ih =>
    intro c n h1 h2 h3 h4
    by_cases hc : cand base c ∈ used
    · have hne : n ≠ c := by
        rintro rfl
        exact h3 hc
      simp only [freshKeyAux, hc, if_true]
      exact ih (c + 1) n (by omega) (by omega) h3 fun m hm1 hm2 => h4 m (by omega) hm2
    · have hnc : n = c := by
        by_contra hne
        exact hc (h4 c (Nat.le_refl c) (by omega))
      subst hnc
      simp [freshKeyAux, hc]

/-- The collision rule the specification states for component entry names: the
chosen key is the first unused name among `name-1`, `name-2`, … (starting from
1). -/
def IsFirstUnusedSuffix (used : List String) (name k : String) : Prop :=
  ∃ n, 1 ≤ n ∧ k = cand name n ∧ k ∉ used ∧
    ∀ m, 1 ≤ m → m < n → cand name m ∈ used

/-- The collision rule the specification states for path keys: the key itself
when unused, else the first unused among `path-1`, `path-2`, …. -/
def IsFirstUnusedPathKey (used : List String) (p k : String) : Prop :=
  (p ∉ used ∧ k = p) ∨ (p ∈ used ∧ IsFirstUnusedSuffix used p k)

theorem uniqueItemKey_first_unused (used : List String) (name : String) :
    IsFirstUnusedSuffix used name (uniqueItemKey used name) := by
  have hex : ∃ n, 1 ≤ n ∧ cand name n ∉ used := by
    obtain ⟨n, h1, _, h3⟩ := exists_cand_not_mem used name 1
    exact ⟨n, h1, h3⟩
  have hspec := Nat.find_spec hex
  have hmin : ∀ m, 1 ≤ m → m < Nat.find hex → cand name m ∈ used := by
    intro m hm1 hm2
    have := Nat.find_min hex hm2
    push_neg at this
    exact this hm1
  have hbound : Nat.find hex < 1 + (used.length + 1) := by
    obtain ⟨n, h1, h2, h3⟩ := exists_cand_not_mem used name 1
    have := Nat.find_min' hex ⟨h1, h3⟩
    omega
  have heq : uniqueItemKey used name = cand name (Nat.find hex) :=
    freshKeyAux_eq_of used name (used.length + 1) 1 (Nat.find hex)
      hspec.1 hbound hspec.2 hmin
  exact ⟨Nat.find hex, hspec.1, heq, heq ▸ hspec.2, hmin⟩

theorem uniquePathKey_first_unused (used : List String) (p : String) :
    IsFirstUnusedPathKey used p (uniquePathKey used p) := by
  by_cases hp : p ∈ used
  · right
    refine ⟨hp, ?_⟩
    have h := uniqueItemKey_first_unused used p
    simpa [uniquePathKey, uniqueItemKey, hp] using h
  · left
    exact ⟨hp, by simp [uniquePathKey, hp]⟩

theorem uniqueItemKey_not_mem (used : List String) (name : String) :
    uniqueItemKey used name ∉ used := by
  obtain ⟨n, _, _, h4, _⟩ := uniqueItemKey_first_unused used name
  exact h4

theorem uniquePathKey_not_mem (used : List String) (p : String) :
    uniquePathKey used p ∉ used := by
  rcases uniquePathKey_first_unused used p with ⟨h1, h2⟩ | ⟨_, _, _, _, h4, _⟩
  · rw [h2]
    exact h1
  · exact h4

/-! ### The merge algorithm (`SphinxOpenApi.merge_openapi_specs`) -/

/-- The exceptions `merge_openapi_specs` can raise: `ValueError` on an empty
input list (`emptyInput`), `AttributeError` when `.items()` is called on a
non-dict section value (`attributeError`), and the `TypeError` family raised
when entries are inserted into a stored category value that is not a dict
(`typeError`). -/
inductive MergeError where
  | emptyInput : MergeError
  | attributeError : MergeError
  | typeError : MergeError

/-- The merged specification.  The Python function returns a dict with keys
`openapi`, `info`, `paths` and — only when `merged_components` is non-empty —
`components`; the structure keeps the four parts, with `components` the
(possibly empty) `merged_components` dict. -/
structure MergedSpec where
  openapi : Node
  info : Node
  paths : List (String × Node)
  components : List (String × Node)

/-- Evaluation of `spec.get(key, {}).items()`: absent key yields the empty
dict's items, a mapping yields its entries, any other present value raises
`AttributeError` (`None.items()`, `[].items()`, …). -/
def sectionItems (spec : Spec) (key : String) :
    Except MergeError (List (String × Node)) :=
  match getVal spec key with
  | none => .ok []
  | some (.map es) => .ok es
  | some _ => .error .attributeError

/-- The path loop of `merge_openapi_specs` for one spec: insert each path item
under `uniquePathKey` of the keys accumulated so far. -/
def insertPaths : List (String × Node) → List (String × Node) → List (String × Node)
  | mp, [] => mp
  | mp, (p, item) :: rest => insertPaths (setKey mp (uniquePathKey (keys mp) p) item) rest

/-- The entry loop of the component branch for one already-seen category:
each entry goes in under its own name when unused, else under
`uniqueItemKey`. -/
def insertItems : List (String × Node) → List (String × Node) → List (String × Node)
  | es, [] => es
  | es, (ik, iv) :: rest =>
    if containsKey es ik then
      insertItems (setKey es (uniqueItemKey (keys es) ik) iv) rest
    else
      insertItems (setKey es ik iv) rest

/-- The component loop of `merge_openapi_specs` for one spec: a category not
yet in `merged_components` is copied as-is (no `.items()` call, hence no error
even for a non-dict value); an already-seen category has its entries iterated
(`AttributeError` if the incoming value is not a dict) and inserted into the
stored category dict (a `TypeError` if a non-empty iteration hits a stored
value that is not a dict). -/
def mergeCompSpec : List (String × Node) → List (String × Node) →
    Except MergeError (List (String × Node))
  | mc, [] => .ok mc
  | mc, (k, v) :: rest =>
    if containsKey mc k then
      match v with
      | .map [] => mergeCompSpec mc rest
      | .map items =>
        match getVal mc k with
        | some (.map es) => mergeCompSpec (setKey mc k (.map (insertItems es items))) rest
        | _ => .error .typeError
      | _ => .error .attributeError
    else
      mergeCompSpec (setKey mc k v) rest

/-- The main loop of `merge_openapi_specs`: for each spec in input order,
merge its `paths` section, then its `components` section. -/
def mergeGo : List Spec → List (String × Node) → List (String × Node) →
    Except MergeError (List (String × Node) × List (String × Node))
  | [], mp, mc => .ok (mp, mc)
  | spec :: rest, mp, mc =>
    match sectionItems spec "paths" with
    | .error e => .error e
    | .ok pitems =>
      match sectionItems spec "components" with
      | .error e => .error e
      | .ok citems =>
        match mergeCompSpec mc citems with
        | .error e => .error e
        | .ok mc' => mergeGo rest (insertPaths mp pitems) mc'

/-- `SphinxOpenApi.merge_openapi_specs`: raises `ValueError` on an empty list;
otherwise takes `openapi` (default `"3.0.0"`) and `info` (default `{}`) from
the first spec and merges all `paths` and `components` sections in input
order. -/
def merge_openapi_specs (specs : List Spec) : Except MergeError MergedSpec :=
  match specs with
  | [] => .error .emptyInput
  | first :: rest =>
    match mergeGo (first :: rest) [] [] with
    | .error e => .error e
    | .ok (mp, mc) =>
      .ok { openapi := (getVal first "openapi").getD (.scalar "3.0.0")
            info := (getVal first "info").getD (.map [])
            paths := mp
            components := mc }

/-! ### The patcher (`SphinxOpenApi._apply_xbe_workarounds`) -/

/-- The hard-coded logo path injected by the XBE workaround. -/
def xbeLogoPath : String := "../../../_static/images/xbe_static_docs/logo.png"

/-- The error raised by the patch body when `spec["info"]` is present but not
a dict (item assignment on a non-dict raises `TypeError`). -/
inductive PatchError where
  | typeError : PatchError

/-- The document transformation of `_apply_xbe_workarounds` (Python name
`_apply_xbe_workarounds`; the leading underscore is dropped): if the loaded
document is a dict containing an `info` key, set `info["x-logo"]` to
`xbeLogoPath`; otherwise the document is rewritten unchanged. -/
def apply_xbe_workarounds (doc : Node) : Except PatchError Node :=
  match doc with
  | .map es =>
    match getVal es "info" with
    | some (.map infoEs) =>
      .ok (.map (setKey es "info" (.map (setKey infoEs "x-logo" (.scalar xbeLogoPath)))))
    | some _ => .error .typeError
    | none => .ok (.map es)
  | .null => .ok .null
  | .scalar sVal => .ok (.scalar sVal)
  | .seq xs => .ok (.seq xs)

/-! ### The orchestration (`SphinxOpenApi.setup_openapi` and `download_file`) -/

/-- Outcome of one `requests.get` plus `raise_for_status` in `download_file`,
following its `except` arms: `Timeout`, `requests.exceptions.HTTPError`,
`requests.exceptions.RequestException`, and the catch-all `Exception`. -/
inductive FetchOutcome where
  | success : FetchOutcome
  | timeout : FetchOutcome
  | httpError : FetchOutcome
  | requestError : FetchOutcome
  | unexpectedError : FetchOutcome
  deriving DecidableEq

/-- Environment for one schema source in a run: how its fetch turns out, and
whether the body of `_apply_xbe_workarounds` (read, parse, rewrite) runs
without raising. -/
structure SourceRun where
  fetch : FetchOutcome
  patchOk : Bool
  deriving DecidableEq

/-- Observable steps of a run of `setup_openapi`, by source position. -/
inductive Event where
  | fetchAttempt : Nat → FetchOutcome → Event
  | patchApplied : Nat → Event
  | patchFailed : Nat → Event
  | combine : Event
  deriving DecidableEq

/-- The per-source loop of `setup_openapi`.  `download_file` catches
`Timeout`, `HTTPError`, `RequestException` and the catch-all `Exception`,
prints a log line and returns normally in every arm; it never re-raises and
never consults `openapi_stop_build_on_error`, so a fetch failure yields just
its trace event and the loop continues.  When the workaround flag is set,
`_apply_xbe_workarounds` is then invoked unconditionally (there is no fetch
success check); its `except` block logs and re-raises exactly when
`openapi_stop_build_on_error` is set, which aborts the run.  The result is
the event trace and whether the run was aborted. -/
def runLoop (useWorkarounds stopOnError : Bool) :
    List SourceRun → Nat → List Event × Bool
  | [], _ => ([], false)
  | s :: rest, i =>
    if useWorkarounds then
      if s.patchOk then
        let r := runLoop useWorkarounds stopOnError rest (i + 1)
        (Event.fetchAttempt i s.fetch :: Event.patchApplied i :: r.1, r.2)
      else if stopOnError then
        ([Event.fetchAttempt i s.fetch, Event.patchFailed i], true)
      else
        let r := runLoop useWorkarounds stopOnError rest (i + 1)
        (Event.fetchAttempt i s.fetch :: Event.patchFailed i :: r.1, r.2)
    else
      let r := runLoop useWorkarounds stopOnError rest (i + 1)
      (Event.fetchAttempt i s.fetch :: r.1, r.2)

/-- `setup_openapi`: download (and, with the workaround flag, patch) every
source in configured order, then run `_combine_schemas` when a combined
schema file path is configured.  Returns the event trace and the aborted
flag. -/
def setup_openapi (useWorkarounds stopOnError hasCombined : Bool)
    (sources : List SourceRun) : List Event × Bool :=
  let r := runLoop useWorkarounds stopOnError sources 0
  if r.2 then r
  else if hasCombined then (r.1 ++ [Event.combine], false) else r

/-! ### Destination validation (spec-modelled)

The specification's orchestration has a pre-flight `ValidateDestinations`
step; the orchestration in the repository's source files (`setup_openapi`)
does not contain it, so it is modelled here from the specification's words
alone. -/

/-- A schema source (`models/schema_info.py`, class `SchemaInfo`): a URL and
the file name (final path segment) of its destination. -/
structure SchemaSource where
  url : String
  destFileName : String

/-- Whether some destination file name occurs more than once. -/
def hasDuplicateName : List String → Bool
  | [] => false
  | n :: rest => if n ∈ rest then true else hasDuplicateName rest

/-- Report of the destination-uniqueness validation. -/
inductive DestReport where
  | unique : DestReport
  | nonUnique : DestReport
  deriving DecidableEq

/-- Modelled from the spec: the missing `ValidateDestinations` step
"computes uniqueness of destination file names across all SchemaSource
entries"; it reports `nonUnique` exactly when two entries share a destination
file name. -/
def validateDestinations (ss : List SchemaSource) : DestReport :=
  if hasDuplicateName (ss.map (fun s => s.destFileName)) then .nonUnique else .unique

/-- Result of the validation step as the spec's orchestration uses it. -/
inductive ValidatedRun where
  | abortedDuplicateDestination : ValidatedRun
  | proceedToFetch : ValidatedRun
  deriving DecidableEq

/-- Modelled from the spec: the missing pre-fetch validation step of the run —
"on duplicates, logs a warning and, if fail-fast is configured, aborts the run
with `duplicate-destination`"; otherwise the run proceeds to fetching. -/
def validatedSetup (failFast : Bool) (ss : List SchemaSource) : ValidatedRun :=
  match validateDestinations ss with
  | .nonUnique => if failFast then .abortedDuplicateDestination else .proceedToFetch
  | .unique => .proceedToFetch

theorem hasDuplicateName_iff_not_nodup (l : List String) :
    hasDuplicateName l = true ↔ ¬ l.Nodup := by
  induction l with
  | nil => simp [hasDuplicateName]
  | cons n rest ih =>
    by_cases h : n ∈ rest
    · simp [hasDuplicateName, h, List.nodup_cons]
    · simp [hasDuplicateName, h, List.nodup_cons, ih]

theorem not_nodup_iff_exists_fin {α : Type} (l : List α) :
    ¬ l.Nodup ↔ ∃ i j : Fin l.length, i ≠ j ∧ l.get i = l.get j := by
  rw [List.nodup_iff_injective_get, Function.not_injective_iff]
  constructor
  · rintro ⟨a, b, h1, h2⟩
    exact ⟨a, b, h2, h1⟩
  · rintro ⟨i, j, h1, h2⟩
    exact ⟨i, j, h2, h1⟩

theorem not_nodup_map_iff (ss : List SchemaSource) :
    ¬ (ss.map (fun s => s.destFileName)).Nodup ↔
      ∃ i j : Fin ss.length, i ≠ j ∧
        (ss.get i).destFileName = (ss.get j).destFileName := by
  rw [not_nodup_iff_exists_fin]
  have hlen : (ss.map (fun s => s.destFileName)).length = ss.length :=
    List.length_map _ _
  constructor
  · rintro ⟨a, b, hne, heq⟩
    refine ⟨Fin.cast hlen a, Fin.cast hlen b, ?_, ?_⟩
    · intro hc
      exact hne (Fin.ext (by simpa using congrArg Fin.val hc))
    · simpa [List.get_map] using heq
  · rintro ⟨i, j, hne, heq⟩
    refine ⟨Fin.cast hlen.symm i, Fin.cast hlen.symm j, ?_, ?_⟩
    · intro hc
      exact hne (Fin.ext (by simpa using congrArg Fin.val hc))
    · simpa [List.get_map] using heq

/-! ### Counting lemmas for the no-loss property -/

/-- The path entries a spec contributes (its `paths` mapping when present and
a mapping, else nothing). -/
def pathItemsOf (s : Spec) : List (String × Node) :=
  match getVal s "paths" with
  | some (.map es) => es
  | _ => []

/-- The component categories of a spec (its `components` mapping when present
and a mapping, else nothing). -/
def compItemsOf (s : Spec) : List (String × Node) :=
  match getVal s "components" with
  | some (.map es) => es
  | _ => []

/-- Number of entries of category `c` in a components dict. -/
def catCount (mc : List (String × Node)) (c : String) : Nat :=
  match getVal mc c with
  | some (.map es) => es.length
  | _ => 0

/-- Sum of the path-entry counts of all specs. -/
def sumPathCounts (specs : List Spec) : Nat :=
  (specs.map fun s => (pathItemsOf s).length).sum

/-- Sum of the entry counts of category `c` across all specs. -/
def sumCatCounts (specs : List Spec) (c : String) : Nat :=
  (specs.map fun s => catCount (compItemsOf s) c).sum

/-- Whether the keys of a dict are pairwise distinct (always true of a dict
decoded from YAML). -/
def keysNodup : List (String × Node) → Bool
  | [] => true
  | (k, _) :: rest => if containsKey rest k then false else keysNodup rest

/-- Whether a top-level section is absent or a mapping. -/
def sectionIsMapOrAbsent (s : Spec) (key : String) : Bool :=
  match getVal s key with
  | none => true
  | some v => v.isMap

/-- Well-formedness of one merge input, as `yaml.safe_load` delivers it when
the document's sections are mappings: `paths` and `components` absent or
mappings, category keys distinct, category values mappings. -/
def wellFormedSpec (s : Spec) : Bool :=
  sectionIsMapOrAbsent s "paths" && sectionIsMapOrAbsent s "components" &&
    keysNodup (compItemsOf s) && (compItemsOf s).all fun kv => (kv.2).isMap

/-- Well-formedness of every merge input. -/
def wellFormedSpecs (specs : List Spec) : Bool :=
  specs.all wellFormedSpec

theorem not_mem_of_containsKey_false (l : List (String × Node)) (k : String)
    (h : containsKey l k = false) : k ∉ keys l := by
  intro hc
  rw [← containsKey_eq_true_iff] at hc
  rw [h] at hc
  exact Bool.false_ne_true hc

theorem sectionItems_eq_of_wf (s : Spec) (key : String)
    (h : sectionIsMapOrAbsent s key = true) :
    sectionItems s key = .ok (match getVal s key with
      | some (.map es) => es
      | _ => []) := by
  unfold sectionIsMapOrAbsent at h
  unfold sectionItems
  cases hg : getVal s key with
  | none => rfl
  | some v =>
    rw [hg] at h
    cases v with
    | map es => rfl
    | null => simp [Node.isMap] at h
    | scalar _ => simp [Node.isMap] at h
    | seq _ => simp [Node.isMap] at h

theorem length_insertPaths (items : List (String × Node)) :
    ∀ mp, (insertPaths mp items).length = mp.length + items.length := by
  induction items with
  | nil => intro mp; simp [insertPaths]
  | cons hd rest ih =>
    intro mp
    obtain ⟨p, item⟩ := hd
    have hfresh : uniquePathKey (keys mp) p ∉ keys mp := uniquePathKey_not_mem _ _
    simp only [insertPaths]
    rw [ih, setKey_of_not_mem _ _ _ hfresh]
    simp
    omega

theorem length_insertItems (items : List (String × Node)) :
    ∀ es, (insertItems es items).length = es.length + items.length := by
  induction items with
  | nil => intro es; simp [insertItems]
  | cons hd rest ih =>
    intro es
    obtain ⟨ik, iv⟩ := hd
    by_cases h : containsKey es ik = true
    · have hfresh : uniqueItemKey (keys es) ik ∉ keys es := uniqueItemKey_not_mem _ _
      simp only [insertItems, h, if_true]
      rw [ih, setKey_of_not_mem _ _ _ hfresh]
      simp
      omega
    · rw [Bool.not_eq_true] at h
      have hnm : ik ∉ keys es := not_mem_of_containsKey_false _ _ h
      simp only [insertItems, h, Bool.false_eq_true, if_false]
      rw [ih, setKey_of_not_mem _ _ _ hnm]
      simp
      omega

theorem getVal_mem (l : List (String × Node)) (k : String) (v : Node)
    (h : getVal l k = some v) : (k, v) ∈ l := by
  induction l with
  | nil => simp [getVal] at h
  | cons hd tl ih =>
    obtain ⟨k', v'⟩ := hd
    by_cases hk : k' = k
    · subst hk
      simp [getVal] at h
      simp [h]
    · simp only [getVal, hk, if_false] at h
      exact List.mem_cons_of_mem _ (ih h)

theorem mergeCompSpec_ok (comps : List (String × Node)) :
    ∀ mc, keysNodup comps = true →
      (∀ kv ∈ comps, ((kv : String × Node).2).isMap = true) →
      (∀ kv ∈ mc, ((kv : String × Node).2).isMap = true) →
      ∃ mc', mergeCompSpec mc comps = .ok mc' ∧
        (∀ c, catCount mc' c = catCount mc c + catCount comps c) ∧
        (∀ kv ∈ mc', ((kv : String × Node).2).isMap = true) := by
  induction comps with
  | nil =>
    intro mc _ _ hinv
    exact ⟨mc, rfl, fun c => by simp [catCount, getVal], hinv⟩
  | cons hd rest ih =>
    intro mc hnd hvals hinv
    obtain ⟨k, v⟩ := hd
    have hck : containsKey rest k = false := by
      by_contra hc
      rw [Bool.not_eq_false] at hc
      simp [keysNodup, hc] at hnd
    have hndrest : keysNodup rest = true := by
      simpa [keysNodup, hck] using hnd
    have hknm : k ∉ keys rest := not_mem_of_containsKey_false _ _ hck
    have hrestNone : getVal rest k = none := (getVal_eq_none_iff _ _).mpr hknm
    have hv : v.isMap = true := hvals (k, v) (List.mem_cons_self _ _)
    obtain ⟨items, rfl⟩ : ∃ items, v = Node.map items := by
      cases v with
      | map items => exact ⟨items, rfl⟩
      | null => simp [Node.isMap] at hv
      | scalar _ => simp [Node.isMap] at hv
      | seq _ => simp [Node.isMap] at hv
    have hvalsrest : ∀ kv ∈ rest, ((kv : String × Node).2).isMap = true :=
      fun kv hm => hvals kv (List.mem_cons_of_mem _ hm)
    by_cases hmem : containsKey mc k = true
    · cases items with
      | nil =>
        have hstep : mergeCompSpec mc ((k, Node.map []) :: rest) = mergeCompSpec mc rest := by
          simp [mergeCompSpec, hmem]
        obtain ⟨mc', h1, h2, h3⟩ := ih mc hndrest hvalsrest hinv
        refine ⟨mc', by rw [hstep]; exact h1, ?_, h3⟩
        intro c
        have hcc : catCount ((k, Node.map []) :: rest) c = catCount rest c := by
          by_cases hc : c = k
          · subst hc
            simp [catCount, getVal, hrestNone]
          · have : k ≠ c := fun hh => hc hh.symm
            simp [catCount, getVal, this]
        rw [hcc]
        exact h2 c
      | cons i0 irest =>
        have hkm : k ∈ keys mc := (containsKey_eq_true_iff _ _).mp hmem
        obtain ⟨stored, hst⟩ := getVal_isSome_of_mem mc k hkm
        have hstoredMap : stored.isMap = true := hinv (k, stored) (getVal_mem _ _ _ hst)
        obtain ⟨es, rfl⟩ : ∃ es, stored = Node.map es := by
          cases stored with
          | map es => exact ⟨es, rfl⟩
          | null => simp [Node.isMap] at hstoredMap
          | scalar _ => simp [Node.isMap] at hstoredMap
          | seq _ => simp [Node.isMap] at hstoredMap
        have hstep : mergeCompSpec mc ((k, Node.map (i0 :: irest)) :: rest) =
            mergeCompSpec (setKey mc k (Node.map (insertItems es (i0 :: irest)))) rest := by
          simp [mergeCompSpec, hmem, hst]
        have hinv2 : ∀ kv ∈ setKey mc k (Node.map (insertItems es (i0 :: irest))),
            ((kv : String × Node).2).isMap = true := by
          intro kv hm
          rcases mem_setKey _ _ _ _ hm with hkv | hkv
          · rw [hkv]
            rfl
          · exact hinv kv hkv
        obtain ⟨mc', h1, h2, h3⟩ :=
          ih (setKey mc k (Node.map (insertItems es (i0 :: irest)))) hndrest hvalsrest hinv2
        refine ⟨mc', by rw [hstep]; exact h1, ?_, h3⟩
        intro c
        rw [h2 c]
        by_cases hc : c = k
        · subst hc
          have hmc2c : catCount (setKey mc c (Node.map (insertItems es (i0 :: irest)))) c =
              es.length + (i0 :: irest).length := by
            simp [catCount, getVal_setKey_self, length_insertItems]
          have hmcc : catCount mc c = es.length := by
            simp [catCount, hst]
          have hrest0 : catCount rest c = 0 := by
            simp [catCount, hrestNone]
          have hconsc : catCount ((c, Node.map (i0 :: irest)) :: rest) c =
              (i0 :: irest).length := by
            simp [catCount, getVal]
          rw [hmc2c, hmcc, hrest0, hconsc]
          omega
        · have hne : k ≠ c := fun hh => hc hh.symm
          have h1' : catCount (setKey mc k (Node.map (insertItems es (i0 :: irest)))) c =
              catCount mc c := by
            simp [catCount, getVal_setKey_ne _ _ _ _ hc]
          have h2' : catCount ((k, Node.map (i0 :: irest)) :: rest) c = catCount rest c := by
            simp [catCount, getVal, hne]
          rw [h1', h2']
    · rw [Bool.not_eq_true] at hmem
      have hknmc : k ∉ keys mc := not_mem_of_containsKey_false _ _ hmem
      have hmcNone : getVal mc k = none := (getVal_eq_none_iff _ _).mpr hknmc
      have hstep : mergeCompSpec mc ((k, Node.map items) :: rest) =
          mergeCompSpec (setKey mc k (Node.map items)) rest := by
        simp [mergeCompSpec, hmem]
      have hinv2 : ∀ kv ∈ setKey mc k (Node.map items),
          ((kv : String × Node).2).isMap = true := by
        intro kv hm
        rcases mem_setKey _ _ _ _ hm with hkv | hkv
        · rw [hkv]
          rfl
        · exact hinv kv hkv
      obtain ⟨mc', h1, h2, h3⟩ := ih (setKey mc k (Node.map items)) hndrest hvalsrest hinv2
      refine ⟨mc', by rw [hstep]; exact h1, ?_, h3⟩
      intro c
      rw [h2 c]
      by_cases hc : c = k
      · subst hc
        have hmc2c : catCount (setKey mc c (Node.map items)) c = items.length := by
          simp [catCount, getVal_setKey_self]
        have hmcc : catCount mc c = 0 := by
          simp [catCount, hmcNone]
        have hrest0 : catCount rest c = 0 := by
          simp [catCount, hrestNone]
        have hconsc : catCount ((c, Node.map items) :: rest) c = items.length := by
          simp [catCount, getVal]
        rw [hmc2c, hmcc, hrest0, hconsc]
        omega
      · have hne : k ≠ c := fun hh => hc hh.symm
        have h1' : catCount (setKey mc k (Node.map items)) c = catCount mc c := by
          simp [catCount, getVal_setKey_ne _ _ _ _ hc]
        have h2' : catCount ((k, Node.map items) :: rest) c = catCount rest c := by
          simp [catCount, getVal, hne]
        rw [h1', h2']

theorem mergeGo_counts (specs : List Spec) :
    ∀ mp mc, wellFormedSpecs specs = true →
      (∀ kv ∈ mc, ((kv : String × Node).2).isMap = true) →
      ∃ mp' mc', mergeGo specs mp mc = .ok (mp', mc') ∧
        mp'.length = mp.length + sumPathCounts specs ∧
        (∀ c, catCount mc' c = catCount mc c + sumCatCounts specs c) ∧
        (∀ kv ∈ mc', ((kv : String × Node).2).isMap = true) := by
  induction specs with
  | nil =>
    intro mp mc _ hinv
    exact ⟨mp, mc, rfl, by simp [sumPathCounts], fun c => by simp [sumCatCounts], hinv⟩
  | cons s rest ih =>
    intro mp mc hwf hinv
    have hws : wellFormedSpec s = true ∧ wellFormedSpecs rest = true := by
      simpa [wellFormedSpecs] using hwf
    obtain ⟨hs, hrest⟩ := hws
    have hs' : (sectionIsMapOrAbsent s "paths" = true ∧
        sectionIsMapOrAbsent s "components" = true ∧
        keysNodup (compItemsOf s) = true) ∧
        ((compItemsOf s).all fun kv => (kv.2).isMap) = true := by
      unfold wellFormedSpec at hs
      simp only [Bool.and_eq_true] at hs
      exact ⟨⟨hs.1.1.1, hs.1.1.2, hs.1.2⟩, hs.2⟩
    obtain ⟨⟨h1, h2, h3⟩, h4⟩ := hs'
    have hpit : sectionItems s "paths" = .ok (pathItemsOf s) := by
      rw [sectionItems_eq_of_wf s "paths" h1]
      rfl
    have hcit : sectionItems s "components" = .ok (compItemsOf s) := by
      rw [sectionItems_eq_of_wf s "components" h2]
      rfl
    have h4' : ∀ kv ∈ compItemsOf s, ((kv : String × Node).2).isMap = true := by
      intro kv hm
      exact List.all_eq_true.mp h4 kv hm
    obtain ⟨mc2, hc1, hc2, hc3⟩ := mergeCompSpec_ok (compItemsOf s) mc h3 h4' hinv
    obtain ⟨mp', mc', hg1, hg2, hg3, hg4⟩ :=
      ih (insertPaths mp (pathItemsOf s)) mc2 hrest hc3
    refine ⟨mp', mc', ?_, ?_, ?_, hg4⟩
    · simp only [mergeGo, hpit, hcit, hc1]
      exact hg1
    · rw [hg2, length_insertPaths]
      simp only [sumPathCounts, List.map_cons, List.sum_cons]
      omega
    · intro c
      rw [hg3 c, hc2 c]
      simp only [sumCatCounts, List.map_cons, List.sum_cons]
      omega

theorem mergeGo_append (lOne lTwo : List Spec) :
    ∀ mp mc, mergeGo (lOne ++ lTwo) mp mc =
      (match mergeGo lOne mp mc with
       | .error e => .error e
       | .ok (mp', mc') => mergeGo lTwo mp' mc') := by
  induction lOne with
  | nil =>
    intro mp mc
    rfl
  | cons s rest ih =>
    intro mp mc
    simp only [List.cons_append, mergeGo]
    cases sectionItems s "paths" with
    | error e => rfl
    | ok pitems =>
      dsimp only
      cases sectionItems s "components" with
      | error e => rfl
      | ok citems =>
        dsimp only
        cases mergeCompSpec mc citems with
        | error e => rfl
        | ok mc2 =>
          dsimp only
          exact ih _ _

/-! ### Trace lemmas for the orchestration -/

theorem runLoop_patchOk (useW stopE : Bool) :
    ∀ sources : List SourceRun, ∀ iStart : Nat,
      (∀ s ∈ sources, s.patchOk = true) →
      (runLoop useW stopE sources iStart).2 = false ∧
      ∀ j : Nat, ∀ hj : j < sources.length,
        Event.fetchAttempt (iStart + j) ((sources.get ⟨j, hj⟩).fetch) ∈
          (runLoop useW stopE sources iStart).1 := by
  intro sources
  induction sources with
  | nil =>
    intro i _
    exact ⟨rfl, fun j hj => absurd hj (by simp)⟩
  | cons s rest ih =>
    intro i h
    have hs : s.patchOk = true := h s (List.mem_cons_self _ _)
    have hrest := ih (i + 1) fun x hx => h x (List.mem_cons_of_mem _ hx)
    by_cases hw : useW = true
    · subst hw
      simp only [runLoop, hs, if_true]
      refine ⟨hrest.1, ?_⟩
      intro j hj
      cases j with
      | zero => simp
      | succ jp =>
        have hmem := hrest.2 jp (by simpa using hj)
        have harith : i + (jp + 1) = i + 1 + jp := by omega
        rw [harith]
        simp only [List.get_cons_succ]
        exact List.mem_cons_of_mem _ (List.mem_cons_of_mem _ hmem)
    · rw [Bool.not_eq_true] at hw
      subst hw
      simp only [runLoop, Bool.false_eq_true, if_false]
      refine ⟨hrest.1, ?_⟩
      intro j hj
      cases j with
      | zero => simp
      | succ jp =>
        have hmem := hrest.2 jp (by simpa using hj)
        have harith : i + (jp + 1) = i + 1 + jp := by omega
        rw [harith]
        simp only [List.get_cons_succ]
        exact List.mem_cons_of_mem _ hmem

theorem setup_openapi_patchOk (useW stopE hasC : Bool) (sources : List SourceRun)
    (h : ∀ s ∈ sources, s.patchOk = true) :
    (setup_openapi useW stopE hasC sources).2 = false ∧
    ∀ j : Nat, ∀ hj : j < sources.length,
      Event.fetchAttempt j ((sources.get ⟨j, hj⟩).fetch) ∈
        (setup_openapi useW stopE hasC sources).1 := by
  obtain ⟨h1, h2⟩ := runLoop_patchOk useW stopE sources 0 h
  have h2' : ∀ j : Nat, ∀ hj : j < sources.length,
      Event.fetchAttempt j ((sources.get ⟨j, hj⟩).fetch) ∈
        (runLoop useW stopE sources 0).1 := by
    intro j hj
    have := h2 j hj
    rwa [Nat.zero_add] at this
  by_cases hc : hasC = true
  · subst hc
    simp only [setup_openapi, h1, Bool.false_eq_true, if_false, if_true]
    exact ⟨trivial, fun j hj => List.mem_append_left _ (h2' j hj)⟩
  · rw [Bool.not_eq_true] at hc
    subst hc
    simp only [setup_openapi, h1, Bool.false_eq_true, if_false]
    exact ⟨trivial, h2'⟩

theorem runLoop_patch_after_fetch (stopE : Bool) :
    ∀ sources : List SourceRun, ∀ iStart : Nat,
      (∀ s ∈ sources, s.patchOk = true) →
      ∀ j : Nat, ∀ hj : j < sources.length,
        ∃ t, (runLoop true stopE sources iStart).1.get? t =
            some (Event.fetchAttempt (iStart + j) ((sources.get ⟨j, hj⟩).fetch)) ∧
          (runLoop true stopE sources iStart).1.get? (t + 1) =
            some (Event.patchApplied (iStart + j)) := by
  intro sources
  induction sources with
  | nil =>
    intro i _ j hj
    simp at hj
  | cons s rest ih =>
    intro i h j hj
    have hs : s.patchOk = true := h s (List.mem_cons_self _ _)
    simp only [runLoop, hs, if_true]
    cases j with
    | zero => exact ⟨0, by simp, by simp⟩
    | succ jp =>
      obtain ⟨t, ht1, ht2⟩ :=
        ih (i + 1) (fun x hx => h x (List.mem_cons_of_mem _ hx)) jp (by simpa using hj)
      have harith : i + (jp + 1) = i + 1 + jp := by omega
      refine ⟨t + 2, ?_, ?_⟩
      · rw [harith]
        simp only [List.get_cons_succ, List.get?]
        exact ht1
      · rw [harith]
        simp only [List.get?]
        exact ht2

theorem setup_patch_after_fetch (stopE hasC : Bool) (sources : List SourceRun)
    (h : ∀ s ∈ sources, s.patchOk = true) :
    ∀ j : Nat, ∀ hj : j < sources.length,
      ∃ t, (setup_openapi true stopE hasC sources).1.get? t =
          some (Event.fetchAttempt j ((sources.get ⟨j, hj⟩).fetch)) ∧
        (setup_openapi true stopE hasC sources).1.get? (t + 1) =
          some (Event.patchApplied j) := by
  intro j hj
  obtain ⟨t, ht1, ht2⟩ := runLoop_patch_after_fetch stopE sources 0 h j hj
  rw [Nat.zero_add] at ht1 ht2
  have habort : (runLoop true stopE sources 0).2 = false :=
    (runLoop_patchOk true stopE sources 0 h).1
  have hlt : t + 1 < (runLoop true stopE sources 0).1.length := by
    obtain ⟨hh, _⟩ := List.get?_eq_some.mp ht2
    exact hh
  by_cases hc : hasC = true
  · subst hc
    simp only [setup_openapi, habort, Bool.false_eq_true, if_false, if_true]
    refine ⟨t, ?_, ?_⟩
    · rw [List.get?_append (by omega)]
      exact ht1
    · rw [List.get?_append hlt]
      exact ht2
  · rw [Bool.not_eq_true] at hc
    subst hc
    simp only [setup_openapi, habort, Bool.false_eq_true, if_false]
    exact ⟨t, ht1, ht2⟩

/-! ### Patch idempotence -/

theorem apply_xbe_idempotent (d dOut : Node)
    (h : apply_xbe_workarounds d = .ok dOut) :
    apply_xbe_workarounds dOut = .ok dOut := by
  cases d with
  | map es =>
    cases hg : getVal es "info" with
    | none =>
      rw [apply_xbe_workarounds, hg] at h
      have hd : dOut = Node.map es := by
        cases h
        rfl
      subst hd
      rw [apply_xbe_workarounds, hg]
    | some v =>
      cases v with
      | map infoEs =>
        rw [apply_xbe_workarounds, hg] at h
        dsimp only at h
        have hd : dOut = Node.map (setKey es "info"
            (Node.map (setKey infoEs "x-logo" (Node.scalar xbeLogoPath)))) := by
          cases h
          rfl
        subst hd
        rw [apply_xbe_workarounds, getVal_setKey_self]
        dsimp only
        rw [setKey_setKey, setKey_setKey]
      | null => rw [apply_xbe_workarounds, hg] at h; cases h
      | scalar _ => rw [apply_xbe_workarounds, hg] at h; cases h
      | seq _ => rw [apply_xbe_workarounds, hg] at h; cases h
  | null =>
    rw [apply_xbe_workarounds] at h
    have hd : dOut = Node.null := by
      cases h
      rfl
    subst hd
    rw [apply_xbe_workarounds]
  | scalar sVal =>
    rw [apply_xbe_workarounds] at h
    have hd : dOut = Node.scalar sVal := by
      cases h
      rfl
    subst hd
    rw [apply_xbe_workarounds]
  | seq xs =>
    rw [apply_xbe_workarounds] at h
    have hd : dOut = Node.seq xs := by
      cases h
      rfl
    subst hd
    rw [apply_xbe_workarounds]

/-! ### Claim theorems -/

/-- C1: for every input, merge inserts each path key of each spec, processing
specs in input order, under its own key when that key is unused in the result
and otherwise under the first unused key `path-1`, `path-2`, …; merging two
specs both defining `/a` yields keys `/a` and `/a-1`, and three such specs
yield `/a`, `/a-1`, `/a-2`. -/
theorem merge_paths_collision_rule :
    (∀ (used : List String) (p : String),
      IsFirstUnusedPathKey used p (uniquePathKey used p)) ∧
    merge_openapi_specs
        [[("paths", Node.map [("/a", Node.scalar "X")])],
         [("paths", Node.map [("/a", Node.scalar "Y")])]] =
      .ok ⟨Node.scalar "3.0.0", Node.map [],
        [("/a", Node.scalar "X"), ("/a-1", Node.scalar "Y")], []⟩ ∧
    merge_openapi_specs
        [[("paths", Node.map [("/a", Node.scalar "X")])],
         [("paths", Node.map [("/a", Node.scalar "Y")])],
         [("paths", Node.map [("/a", Node.scalar "Z")])]] =
      .ok ⟨Node.scalar "3.0.0", Node.map [],
        [("/a", Node.scalar "X"), ("/a-1", Node.scalar "Y"),
         ("/a-2", Node.scalar "Z")], []⟩ :=
  ⟨uniquePathKey_first_unused, rfl, rfl⟩

/-- C2: a component category is copied wholesale the first time it is seen;
within an already-present category each later entry goes in under its own name
when unused and otherwise under the first unused name `name-1`, `name-2`, …
(starting from 1); merging two specs both defining `components.schemas.Foo`
yields `Foo` (first value) and `Foo-1` (second value). -/
theorem merge_components_collision_rule :
    (∀ (used : List String) (name : String),
      IsFirstUnusedSuffix used name (uniqueItemKey used name)) ∧
    merge_openapi_specs
        [[("components", Node.map [("schemas", Node.map [("Foo", Node.scalar "1")])])],
         [("components", Node.map [("schemas", Node.map [("Foo", Node.scalar "2")])])]] =
      .ok ⟨Node.scalar "3.0.0", Node.map [], [],
        [("schemas", Node.map [("Foo", Node.scalar "1"), ("Foo-1", Node.scalar "2")])]⟩ ∧
    merge_openapi_specs
        [[("components", Node.map [("schemas", Node.map [("A", Node.scalar "1")])])],
         [("components", Node.map [("responses", Node.map [("B", Node.scalar "2")])])]] =
      .ok ⟨Node.scalar "3.0.0", Node.map [], [],
        [("schemas", Node.map [("A", Node.scalar "1")]),
         ("responses", Node.map [("B", Node.scalar "2")])]⟩ :=
  ⟨uniqueItemKey_first_unused, rfl, rfl⟩

/-- C3: for well-formed inputs (sections absent or mappings, category values
mappings, category keys distinct) the merged `paths` has exactly as many
entries as all inputs together, and each component category of the result has
exactly as many entries as that category has across all inputs: nothing is
dropped or overwritten. -/
theorem merge_no_loss (specs : List Spec) (m : MergedSpec)
    (hwf : wellFormedSpecs specs = true)
    (hok : merge_openapi_specs specs = .ok m) :
    m.paths.length = sumPathCounts specs ∧
    ∀ c : String, catCount m.components c = sumCatCounts specs c := by
  match specs with
  | [] => simp [merge_openapi_specs] at hok
  | first :: rest =>
    obtain ⟨mp', mc', hg, h1, h2, _⟩ :=
      mergeGo_counts (first :: rest) [] [] hwf (by simp)
    rw [merge_openapi_specs, hg] at hok
    dsimp only at hok
    cases hok
    constructor
    · simpa using h1
    · intro c
      have := h2 c
      simpa [catCount, getVal] using this

/-- Witness for `merge_no_loss` at a two-spec input with one path and one
`schemas` entry each. -/
theorem merge_no_loss_witness :
    (⟨Node.scalar "3.0.0", Node.map [],
      [("/a", Node.scalar "X"), ("/a-1", Node.scalar "Y")],
      [("schemas", Node.map [("Foo", Node.scalar "1"), ("Foo-1", Node.scalar "2")])]⟩ :
        MergedSpec).paths.length = 2 ∧
    catCount (⟨Node.scalar "3.0.0", Node.map [],
      [("/a", Node.scalar "X"), ("/a-1", Node.scalar "Y")],
      [("schemas", Node.map [("Foo", Node.scalar "1"), ("Foo-1", Node.scalar "2")])]⟩ :
        MergedSpec).components "schemas" = 2 := by
  have h := merge_no_loss
    [[("paths", Node.map [("/a", Node.scalar "X")]),
      ("components", Node.map [("schemas", Node.map [("Foo", Node.scalar "1")])])],
     [("paths", Node.map [("/a", Node.scalar "Y")]),
      ("components", Node.map [("schemas", Node.map [("Foo", Node.scalar "2")])])]]
    ⟨Node.scalar "3.0.0", Node.map [],
      [("/a", Node.scalar "X"), ("/a-1", Node.scalar "Y")],
      [("schemas", Node.map [("Foo", Node.scalar "1"), ("Foo-1", Node.scalar "2")])]⟩
    rfl rfl
  exact ⟨h.1, h.2 "schemas"⟩

/-- C4 counterexample: with the fail-fast flag set and the first source's
fetch timing out, the run is not aborted — the second source is still fetched
and the combine step still runs, contradicting the claim that the run aborts
at the first fetch failure. -/
theorem fetch_failure_does_not_abort :
    setup_openapi false true true
        [⟨FetchOutcome.timeout, true⟩, ⟨FetchOutcome.success, true⟩] =
      ([Event.fetchAttempt 0 FetchOutcome.timeout,
        Event.fetchAttempt 1 FetchOutcome.success, Event.combine], false) := rfl

/-- C4 amended: a fetch failure never aborts the run, whatever the fail-fast
flag says: `download_file` swallows every exception, so as long as no patch
failure aborts, the run completes and every source is fetched regardless of
the fetch outcomes. -/
theorem fetch_failures_never_abort (useW stopE hasC : Bool)
    (sources : List SourceRun) (h : ∀ s ∈ sources, s.patchOk = true) :
    (setup_openapi useW stopE hasC sources).2 = false ∧
    ∀ j : Nat, ∀ hj : j < sources.length,
      Event.fetchAttempt j ((sources.get ⟨j, hj⟩).fetch) ∈
        (setup_openapi useW stopE hasC sources).1 :=
  setup_openapi_patchOk useW stopE hasC sources h

/-- Witness for `fetch_failures_never_abort`: a fail-fast run whose only
source times out is not aborted and the fetch attempt appears in the trace. -/
theorem fetch_failures_never_abort_witness :
    (setup_openapi true true true [⟨FetchOutcome.timeout, true⟩]).2 = false ∧
    Event.fetchAttempt 0 FetchOutcome.timeout ∈
      (setup_openapi true true true [⟨FetchOutcome.timeout, true⟩]).1 := by
  have h := fetch_failures_never_abort true true true
    [⟨FetchOutcome.timeout, true⟩] (by decide)
  exact ⟨h.1, by simpa using h.2 0 (by decide)⟩

/-- C5 (spec-modelled): `ValidateDestinations` reports `nonUnique` exactly
when two SchemaSource entries share a destination file name, and the run
aborts with `duplicate-destination` before any fetch exactly when this happens
under fail-fast. -/
theorem validate_destinations_reports (ss : List SchemaSource) :
    (validateDestinations ss = .nonUnique ↔
      ∃ i j : Fin ss.length, i ≠ j ∧
        (ss.get i).destFileName = (ss.get j).destFileName) ∧
    ∀ failFast : Bool,
      validatedSetup failFast ss = .abortedDuplicateDestination ↔
        (failFast = true ∧ validateDestinations ss = .nonUnique) := by
  have hchar : validateDestinations ss = .nonUnique ↔
      hasDuplicateName (ss.map fun s => s.destFileName) = true := by
    unfold validateDestinations
    by_cases hd : hasDuplicateName (ss.map fun s => s.destFileName) = true
    · simp [hd]
    · simp [hd]
  constructor
  · rw [hchar, hasDuplicateName_iff_not_nodup, not_nodup_map_iff]
  · intro failFast
    unfold validatedSetup
    cases hv : validateDestinations ss with
    | unique => simp [hv]
    | nonUnique =>
      cases failFast with
      | true => simp
      | false => simp

/-- C6 counterexample: a spec whose `paths` key holds `null` (not a mapping)
makes the merge raise an `AttributeError` instead of treating the section as
empty and succeeding. -/
theorem non_mapping_paths_errors :
    merge_openapi_specs [[("paths", Node.null)]] = .error .attributeError := rfl

/-- C6 amended: a spec whose `paths` or `components` key is absent contributes
nothing to the merge, which succeeds; but a section that is present and not a
mapping makes the merge fail with an attribute error rather than being treated
as empty. -/
theorem absent_sections_contribute_nothing :
    (∀ (ss : List Spec) (s : Spec), ss ≠ [] →
      getVal s "paths" = none → getVal s "components" = none →
      merge_openapi_specs (ss ++ [s]) = merge_openapi_specs ss) ∧
    (∀ (ss : List Spec) (s : Spec) (m : MergedSpec) (v : Node),
      merge_openapi_specs ss = .ok m → getVal s "paths" = some v →
      v.isMap = false →
      merge_openapi_specs (ss ++ [s]) = .error .attributeError) ∧
    (∀ (ss : List Spec) (s : Spec) (m : MergedSpec) (v : Node),
      merge_openapi_specs ss = .ok m →
      sectionIsMapOrAbsent s "paths" = true →
      getVal s "components" = some v → v.isMap = false →
      merge_openapi_specs (ss ++ [s]) = .error .attributeError) := by
  refine ⟨?_, ?_, ?_⟩
  · intro ss s hne hp hc
    match ss with
    | first :: rest =>
      have hone : ∀ mp mc, mergeGo [s] mp mc = .ok (mp, mc) := by
        intro mp mc
        simp [mergeGo, sectionItems, hp, hc, insertPaths, mergeCompSpec]
      have key : mergeGo (first :: (rest ++ [s])) [] [] =
          mergeGo (first :: rest) [] [] := by
        have happ := mergeGo_append (first :: rest) [s] [] []
        simp only [List.cons_append] at happ
        rw [happ]
        cases hgo : mergeGo (first :: rest) [] [] with
        | error e => rfl
        | ok pr =>
          obtain ⟨mp, mc⟩ := pr
          exact hone mp mc
      show merge_openapi_specs (first :: (rest ++ [s])) = _
      rw [merge_openapi_specs, merge_openapi_specs, key]
  · intro ss s m v hok hp hnm
    match ss with
    | [] => simp [merge_openapi_specs] at hok
    | first :: rest =>
      have hgo : ∃ mp mc, mergeGo (first :: rest) [] [] = .ok (mp, mc) := by
        revert hok
        rw [merge_openapi_specs]
        cases mergeGo (first :: rest) [] [] with
        | error e => intro hcon; cases hcon
        | ok pr => exact fun _ => ⟨pr.1, pr.2, rfl⟩
      obtain ⟨mp, mc, hgo⟩ := hgo
      have herr : sectionItems s "paths" = .error .attributeError := by
        unfold sectionItems
        rw [hp]
        cases v with
        | map es => simp [Node.isMap] at hnm
        | null => rfl
        | scalar _ => rfl
        | seq _ => rfl
      have key : mergeGo (first :: (rest ++ [s])) [] [] =
          .error .attributeError := by
        have happ := mergeGo_append (first :: rest) [s] [] []
        simp only [List.cons_append] at happ
        rw [happ, hgo]
        simp [mergeGo, herr]
      show merge_openapi_specs (first :: (rest ++ [s])) = _
      rw [merge_openapi_specs, key]
  · intro ss s m v hok hpok hc hnm
    match ss with
    | [] => simp [merge_openapi_specs] at hok
    | first :: rest =>
      have hgo : ∃ mp mc, mergeGo (first :: rest) [] [] = .ok (mp, mc) := by
        revert hok
        rw [merge_openapi_specs]
        cases mergeGo (first :: rest) [] [] with
        | error e => intro hcon; cases hcon
        | ok pr => exact fun _ => ⟨pr.1, pr.2, rfl⟩
      obtain ⟨mp, mc, hgo⟩ := hgo
      have hpit : sectionItems s "paths" = .ok (match getVal s "paths" with
          | some (.map es) => es
          | _ => []) := sectionItems_eq_of_wf s "paths" hpok
      have herr : sectionItems s "components" = .error .attributeError := by
        unfold sectionItems
        rw [hc]
        cases v with
        | map es => simp [Node.isMap] at hnm
        | null => rfl
        | scalar _ => rfl
        | seq _ => rfl
      have key : mergeGo (first :: (rest ++ [s])) [] [] =
          .error .attributeError := by
        have happ := mergeGo_append (first :: rest) [s] [] []
        simp only [List.cons_append] at happ
        rw [happ, hgo]
        simp [mergeGo, hpit, herr]
      show merge_openapi_specs (first :: (rest ++ [s])) = _
      rw [merge_openapi_specs, key]

/-- Witness for `absent_sections_contribute_nothing`: an empty trailing spec
changes nothing, and a trailing spec with `paths: null` turns the merge into
an attribute error. -/
theorem absent_sections_witness :
    merge_openapi_specs [[("openapi", Node.scalar "3.1.0")], []] =
      merge_openapi_specs [[("openapi", Node.scalar "3.1.0")]] ∧
    merge_openapi_specs [[], [("paths", Node.null)]] = .error .attributeError := by
  constructor
  · exact absent_sections_contribute_nothing.1
      [[("openapi", Node.scalar "3.1.0")]] [] (by simp) rfl rfl
  · exact absent_sections_contribute_nothing.2.1
      [[]] [("paths", Node.null)]
      ⟨Node.scalar "3.0.0", Node.map [], [], []⟩ Node.null rfl rfl rfl

/-- C7: the merged result's `openapi` and `info` are the first spec's values
verbatim, later specs' `openapi`/`info` are ignored, and the spec's concrete
example merges as stated. -/
theorem merge_metadata_from_first :
    (∀ (first : Spec) (rest : List Spec) (m : MergedSpec) (ov iv : Node),
      getVal first "openapi" = some ov → getVal first "info" = some iv →
      merge_openapi_specs (first :: rest) = .ok m →
      m.openapi = ov ∧ m.info = iv) ∧
    (∀ (first : Spec) (restA restB : List Spec) (mA mB : MergedSpec),
      merge_openapi_specs (first :: restA) = .ok mA →
      merge_openapi_specs (first :: restB) = .ok mB →
      mA.openapi = mB.openapi ∧ mA.info = mB.info) ∧
    merge_openapi_specs
        [[("openapi", Node.scalar "3.0.0"),
          ("info", Node.map [("title", Node.scalar "A")])],
         [("openapi", Node.scalar "3.1.0"),
          ("info", Node.map [("title", Node.scalar "B")])]] =
      .ok ⟨Node.scalar "3.0.0", Node.map [("title", Node.scalar "A")], [], []⟩ := by
  refine ⟨?_, ?_, rfl⟩
  · intro first rest m ov iv hov hiv hok
    rw [merge_openapi_specs] at hok
    cases hgo : mergeGo (first :: rest) [] [] with
    | error e =>
      rw [hgo] at hok
      cases hok
    | ok pr =>
      rw [hgo] at hok
      obtain ⟨mp, mc⟩ := pr
      dsimp only at hok
      cases hok
      refine ⟨?_, ?_⟩
      · dsimp only
        rw [hov]
        rfl
      · dsimp only
        rw [hiv]
        rfl
  · intro first restA restB mA mB hA hB
    rw [merge_openapi_specs] at hA
    rw [merge_openapi_specs] at hB
    cases hgoA : mergeGo (first :: restA) [] [] with
    | error e =>
      rw [hgoA] at hA
      cases hA
    | ok prA =>
      rw [hgoA] at hA
      cases hgoB : mergeGo (first :: restB) [] [] with
      | error e =>
        rw [hgoB] at hB
        cases hB
      | ok prB =>
        rw [hgoB] at hB
        obtain ⟨mpA, mcA⟩ := prA
        obtain ⟨mpB, mcB⟩ := prB
        dsimp only at hA hB
        cases hA
        cases hB
        exact ⟨rfl, rfl⟩

/-- Witness for `merge_metadata_from_first` at the spec's concrete example. -/
theorem merge_metadata_witness :
    (⟨Node.scalar "3.0.0", Node.map [("title", Node.scalar "A")], [], []⟩ :
        MergedSpec).openapi = Node.scalar "3.0.0" ∧
    (⟨Node.scalar "3.0.0", Node.map [("title", Node.scalar "A")], [], []⟩ :
        MergedSpec).info = Node.map [("title", Node.scalar "A")] :=
  merge_metadata_from_first.1
    [("openapi", Node.scalar "3.0.0"), ("info", Node.map [("title", Node.scalar "A")])]
    [[("openapi", Node.scalar "3.1.0"), ("info", Node.map [("title", Node.scalar "B")])]]
    ⟨Node.scalar "3.0.0", Node.map [("title", Node.scalar "A")], [], []⟩
    (Node.scalar "3.0.0") (Node.map [("title", Node.scalar "A")]) rfl rfl rfl

/-- C8 counterexample: with the workaround flag set, a source whose fetch
timed out is still patched — `setup_openapi` calls the patch unconditionally
after `download_file` returns, with no success check. -/
theorem failed_fetch_still_patched :
    setup_openapi true true false [⟨FetchOutcome.timeout, true⟩] =
      ([Event.fetchAttempt 0 FetchOutcome.timeout, Event.patchApplied 0],
        false) := rfl

/-- C8 amended: with the workaround flag set, the patch is applied to each
source immediately after that source's fetch attempt, whether or not the
fetch succeeded (as long as no earlier patch failure aborted the run). -/
theorem patch_follows_every_fetch_attempt (stopE hasC : Bool)
    (sources : List SourceRun) (h : ∀ s ∈ sources, s.patchOk = true) :
    ∀ j : Nat, ∀ hj : j < sources.length,
      ∃ t, (setup_openapi true stopE hasC sources).1.get? t =
          some (Event.fetchAttempt j ((sources.get ⟨j, hj⟩).fetch)) ∧
        (setup_openapi true stopE hasC sources).1.get? (t + 1) =
          some (Event.patchApplied j) :=
  setup_patch_after_fetch stopE hasC sources h

/-- Witness for `patch_follows_every_fetch_attempt`: the patch event follows
the failed fetch attempt of a single timed-out source. -/
theorem patch_follows_witness :
    ∃ t, (setup_openapi true true false
        [⟨FetchOutcome.timeout, true⟩]).1.get? t =
        some (Event.fetchAttempt 0 FetchOutcome.timeout) ∧
      (setup_openapi true true false
        [⟨FetchOutcome.timeout, true⟩]).1.get? (t + 1) =
        some (Event.patchApplied 0) := by
  have h := patch_follows_every_fetch_attempt true false
    [⟨FetchOutcome.timeout, true⟩] (by decide) 0 (by decide)
  simpa using h

/-- C9: the patch transformation is idempotent — a second application to an
already-patched document returns it unchanged, the injected `info.x-logo`
being simply overwritten. -/
theorem patch_idempotent (d dOut : Node)
    (h : apply_xbe_workarounds d = .ok dOut) :
    apply_xbe_workarounds dOut = .ok dOut :=
  apply_xbe_idempotent d dOut h

/-- Witness for `patch_idempotent` on a document with an empty `info`
mapping. -/
theorem patch_idempotent_witness :
    apply_xbe_workarounds
        (Node.map [("info", Node.map [("x-logo", Node.scalar xbeLogoPath)])]) =
      .ok (Node.map [("info", Node.map [("x-logo", Node.scalar xbeLogoPath)])]) :=
  patch_idempotent (Node.map [("info", Node.map [])])
    (Node.map [("info", Node.map [("x-logo", Node.scalar xbeLogoPath)])]) rfl

/-- C10: a first spec without an `openapi` key yields the default version
string `"3.0.0"`, one without an `info` key yields the empty mapping, and the
merge succeeds in both cases. -/
theorem merge_metadata_defaults :
    (∀ (first : Spec) (rest : List Spec) (m : MergedSpec),
      getVal first "openapi" = none →
      merge_openapi_specs (first :: rest) = .ok m →
      m.openapi = Node.scalar "3.0.0") ∧
    (∀ (first : Spec) (rest : List Spec) (m : MergedSpec),
      getVal first "info" = none →
      merge_openapi_specs (first :: rest) = .ok m →
      m.info = Node.map []) ∧
    merge_openapi_specs [[]] =
      .ok ⟨Node.scalar "3.0.0", Node.map [], [], []⟩ := by
  refine ⟨?_, ?_, rfl⟩
  · intro first rest m hov hok
    rw [merge_openapi_specs] at hok
    cases hgo : mergeGo (first :: rest) [] [] with
    | error e =>
      rw [hgo] at hok
      cases hok
    | ok pr =>
      rw [hgo] at hok
      obtain ⟨mp, mc⟩ := pr
      dsimp only at hok
      cases hok
      dsimp only
      rw [hov]
      rfl
  · intro first rest m hiv hok
    rw [merge_openapi_specs] at hok
    cases hgo : mergeGo (first :: rest) [] [] with
    | error e =>
      rw [hgo] at hok
      cases hok
    | ok pr =>
      rw [hgo] at hok
      obtain ⟨mp, mc⟩ := pr
      dsimp only at hok
      cases hok
      dsimp only
      rw [hiv]
      rfl

/-- Witness for `merge_metadata_defaults` at the one-element list holding an
empty spec. -/
theorem merge_metadata_defaults_witness :
    (⟨Node.scalar "3.0.0", Node.map [], [], []⟩ : MergedSpec).openapi =
        Node.scalar "3.0.0" ∧
    (⟨Node.scalar "3.0.0", Node.map [], [], []⟩ : MergedSpec).info =
        Node.map [] :=
  ⟨merge_metadata_defaults.1 [] []
      ⟨Node.scalar "3.0.0", Node.map [], [], []⟩ rfl rfl,
    merge_metadata_defaults.2.1 [] []
      ⟨Node.scalar "3.0.0", Node.map [], [], []⟩ rfl rfl⟩
